import Mathlib

/-!
Verification of the WeSum WeChat monitor pipeline.

Shallow embedding of the decision logic of the repository:
* `main.py`         — weighted noise classifier `AIArticleProcessor.detect_noise`,
                      category generation, RSS time-window filtering, seen-store persistence;
* `src/ai_processor.py`     — count-based classifier `_match_keywords` / `_get_noise_level`,
                      response parsing `_parse_ai_response`;
* `src/article_classifier.py` — legacy classifier keyword table (same `_get_noise_level`).

Texts are modelled as `String` / `List Char`.  Python's float scores
(`title * 2.5 + body` with thresholds 2, 2.5, 4, 5) are exact multiples of 0.5,
so the classifier stores scores doubled in `Nat` (`5*title + 2*body`,
thresholds 4, 5, 8, 10); the source formula is kept verbatim as the rational
`weightedScore`, related to the doubled score by `weightedScore_eq_half`.
-/

/-- Character-list view of a text, as Python strings are sequences of code points. -/
abbrev Chars := List Char

/-- Python's substring test `needle in hay` (`str.__contains__`). -/
def containsSub (needle : Chars) : Chars → Bool
  | [] => needle.isEmpty
  | c :: t => needle.isPrefixOf (c :: t) || containsSub needle t

/-- Python `str.strip()`: drop leading and trailing whitespace.  Whitespace is
`Char.isWhitespace` (space, tab, CR, LF) — the characters the pipeline's texts
use; Python's class also holds rarer control and Unicode space characters. -/
def pystrip (s : Chars) : Chars :=
  ((s.dropWhile Char.isWhitespace).reverse.dropWhile Char.isWhitespace).reverse

/-- Helper for `splitOnChar`: accumulates the current piece reversed. -/
def splitOnCharAux (sep : Char) : Chars → Chars → List Chars
  | acc, [] => [acc.reverse]
  | acc, c :: r => if c = sep then acc.reverse :: splitOnCharAux sep [] r
                   else splitOnCharAux sep (c :: acc) r

/-- Python `str.split(sep)` for a one-character separator: keeps empty pieces. -/
def splitOnChar (sep : Char) (s : Chars) : List Chars :=
  splitOnCharAux sep [] s

/-!
## Weighted noise classifier (`main.py`, `AIArticleProcessor.detect_noise`, lines 163–215)
-/

/-- Keyword table of `AIArticleProcessor._default_noise_keywords` in `main.py`
(lines 118–161), in the dict's insertion order.  The duplicated "付费社群" entry of
the 社群 list is kept as in the source. -/
def noiseKeywordsMain : List (String × List String) :=
  [ ("招聘",
      ["诚聘", "热招", "急聘", "招聘", "猎头", "招贤纳士",
       "职位描述", "岗位要求", "岗位职责", "任职要求",
       "投递简历", "发送简历", "简历投递", "简历请发",
       "薪资待遇", "年薪", "月薪", "底薪", "薪资面议", "五险一金"]),
    ("带货",
      ["限时优惠", "限时特惠", "特价", "清仓", "秒杀", "抢购", "大促",
       "立减", "满减", "优惠卷", "优惠券", "领券", "折扣",
       "立即购买", "马上抢", "点击购买", "扫码购买", "购买链接",
       "下单链接", "抢购链接", "立即下单", "马上抢购",
       "爆款推荐", "热销爆款", "火爆销售", "热销产品", "畅销",
       "包邮", "货到付款", "七天退换", "无理由退换", "正品保证",
       "原价", "现价", "促销价", "活动价", "特价"]),
    ("课程",
      ["训练营报名", "扫码报名", "立即报名", "报名链接", "咨询报名",
       "课程优惠", "限时特价", "立减", "早鸟价", "团购价",
       "在线课程", "视频课程", "系列课程", "实战课程", "系统课程",
       "包学会", "学会为止", "免费试听", "试听课程"]),
    ("社群",
      ["加入知识星球", "知识星球", "付费社群", "付费社群",
       "会员专区", "VIP会员", "会员服务", "成为会员",
       "加入社群", "扫码加群", "粉丝群", "交流群", "付费群",
       "社群福利", "会员福利", "专属福利", "会员专享"]),
    ("活动推广",
      ["会议报名", "展会报名", "活动报名", "报名开启", "报名通道",
       "早鸟票", "早鸟优惠", "购票链接", "抢票", "门票",
       "名额有限", "仅限", "限时免费", "限时报名"]),
    ("融资",
      ["轮融资", "完成融资", "获得融资", "募资完成",
       "估值", "IPO上市", "启动IPO", "挂牌上市"]),
    ("广告",
      ["广告合作", "商业合作", "品牌赞助", "赞助商",
       "软文推广", "品牌推广", "产品推广", "商业推广"]) ]

/-- `[kw for kw in keywords if kw in text]` — number of distinct table keywords
occurring in `text` (a keyword listed twice in the table is counted twice, as in
the Python list comprehension). -/
def matchCount (text : String) (kws : List String) : Nat :=
  (kws.filter (fun kw => containsSub kw.toList text.toList)).length

/-- Twice the weighted score `title_count * 2.5 + content_count` of
`detect_noise` (`main.py` line 194), kept in `Nat`: `5*title + 2*content`. -/
def weighted2 (title content : String) (kws : List String) : Nat :=
  5 * matchCount title kws + 2 * matchCount content kws

/-- The weighted score exactly as written in the source
(`weighted_count = title_count * 2.5 + content_count`, `main.py` line 194). -/
def weightedScore (title content : String) (kws : List String) : ℚ :=
  (matchCount title kws : ℚ) * (5 / 2) + (matchCount content kws : ℚ)

/-- The `all_matches` dict of `detect_noise` (`main.py` lines 189–200): categories
whose weighted score reaches the discard threshold 2.0 (doubled: 4), with their
doubled weighted score and title-keyword count.  Iteration order is the keyword
table's order; Python iterates an unordered `set` of the matched keys, so any
theorem below that depends on the winner assumes a unique competitive winner. -/
def competitive (title content : String) : List (String × Nat × Nat) :=
  noiseKeywordsMain.filterMap (fun p =>
    let w := weighted2 title content p.2
    if 4 ≤ w then some (p.1, w, matchCount title p.2) else none)

/-- `max(all_matches.keys(), key=weighted_count)` — first maximum in list order. -/
def pickMax : List (String × Nat × Nat) → Option (String × Nat × Nat)
  | [] => none
  | x :: xs => some (xs.foldl (fun best y => if best.2.1 < y.2.1 then y else best) x)

/-- `AIArticleProcessor.detect_noise` of `main.py` (lines 163–215), returning
(noise_level, noise_type).  Thresholds are doubled with the score: source
`>= 5` ↦ `10 ≤ w`, `>= 4` ↦ `8 ≤ w`, `>= 2.5` ↦ `5 ≤ w`.  The source also
returns a (always empty) matched-keyword list, omitted here. -/
def detect_noise (title content : String) : Option String × Option String :=
  match pickMax (competitive title content) with
  | none => (none, none)
  | some (cat, w, t) =>
    if 10 ≤ w ∨ (8 ≤ w ∧ 2 ≤ t) then (some "heavy", some cat)
    else if 5 ≤ w then (some "light", some cat)
    else (none, none)

/-- Keyword list of one category of a keyword table (for concrete instances). -/
def keywordsOf (tbl : List (String × List String)) (cat : String) : List String :=
  ((tbl.find? (fun p => p.1 = cat)).map Prod.snd).getD []

/-!
## Count-based classifier (`src/ai_processor.py`, `_match_keywords` / `_get_noise_level`,
lines 91–134; legacy table of `src/article_classifier.py`, lines 23–34)
-/

/-- Keyword table of `AIArticleProcessor._default_noise_keywords` in
`src/ai_processor.py` (lines 27–50), in dict insertion order. -/
def noiseKeywordsAP : List (String × List String) :=
  [ ("招聘", ["招聘", "诚聘", "猎头", "职位", "JD", "简历", "应聘", "面试", "入职", "薪资"]),
    ("带货",
      ["元", "块", "毛", "折", "优惠", "限时", "特价", "清仓", "秒杀", "抢购",
       "购买", "下单", "立减", "满减", "券", "福利", "红包", "补贴",
       "支", "件", "套", "盒", "瓶", "袋", "斤", "克", "ml", "L",
       "立即抢", "马上抢", "抢购", "速抢", "扫码", "点击购买", "购买链接",
       "爆款", "热销", "新品", "新品上市", "配置拉满", "性价比", "超值",
       "包邮", "货到付款", "七天退换", "正品", "官方", "旗舰店", "自营"]),
    ("广告", ["赞助", "广告", "品牌推广", "商业合作", "软文", "推广"]),
    ("课程", ["课程", "训练营", "扫码", "立减", "报名", "学习", "培训", "讲座", "公开课"]),
    ("社群", ["知识星球", "付费社群", "会员", "加入社群", "社群", "粉丝群", "交流群"]),
    ("活动推广", ["会议报名", "展会报名", "早鸟票", "活动报名", "立即报名", "报名开启", "开启报名"]),
    ("融资", ["融资", "轮融资", "估值", "投资方", "募资", "IPO", "上市"]),
    ("公关", ["发布", "新品发布", "隆重推出", "盛大发布", "战略合作", "签署协议", "获奖"]) ]

/-- Default keyword table of `ArticleClassifier._default_noise_keywords` in
`src/article_classifier.py` (lines 23–34); only its key set matters below. -/
def noiseKeywordsAC : List (String × List String) :=
  [ ("招聘", ["招聘", "诚聘", "猎头", "职位", "JD", "简历", "应聘", "面试"]),
    ("带货", ["购买", "下单", "优惠", "限时", "折扣", "促销", "购买链接", "立即抢"]),
    ("广告", ["赞助", "广告", "品牌推广", "商业合作"]),
    ("课程", ["课程", "训练营", "扫码", "立减", "报名", "学习"]),
    ("社群", ["知识星球", "付费社群", "会员", "加入社群", "社群"]),
    ("活动推广", ["会议报名", "展会报名", "早鸟票", "活动报名", "立即报名", "报名开启"]),
    ("融资", ["融资", "轮融资", "估值", "投资方", "募资"]),
    ("公关", ["发布", "新品发布", "隆重推出", "盛大发布", "战略合作", "签署协议", "获奖"]) ]

/-- The `best_match_type` / `best_match_count` loop of
`AIArticleProcessor._match_keywords` (`src/ai_processor.py` lines 105–116):
strict-greater updates over the table in dict order. -/
def matchKeywordsBest (text : String) : Option String × Nat :=
  noiseKeywordsAP.foldl
    (fun acc p =>
      let c := matchCount text p.2
      if acc.2 < c then (some p.1, c) else acc)
    (none, 0)

/-- `_get_noise_level` (`src/ai_processor.py` lines 128–134; identical in
`src/article_classifier.py` lines 123–141).  A `none` argument (Python `None`)
falls through both membership tests to "light", as in the source. -/
def get_noise_level (nt : Option String) : String :=
  match nt with
  | some t =>
    if t ∈ ["招聘", "带货", "广告", "课程", "社群", "活动推广"] then "noise"
    else if t ∈ ["融资", "公关"] then "pr"
    else "light"
  | none => "light"

/-- Result record of `_match_keywords` (`src/ai_processor.py` lines 122–126). -/
structure MatchResult where
  is_noise : Bool
  noise_type : Option String
  noise_level : Option String
deriving DecidableEq

/-- `AIArticleProcessor._match_keywords` (`src/ai_processor.py` lines 91–126):
an article is noise when the best category matches at least 2 keywords. -/
def match_keywords (text : String) : MatchResult :=
  let b := matchKeywordsBest text
  { is_noise := decide (2 ≤ b.2)
    noise_type := if 2 ≤ b.2 then b.1 else none
    noise_level := if 2 ≤ b.2 then some (get_noise_level b.1) else none }

/-!
## Model-response parsing (`src/ai_processor.py`, `_parse_ai_response`, lines 272–307;
byte-identical logic in `src/ai_summarizer.py`, lines 107–149)
-/

/-- The tag-section marker `【标签】`. -/
def tagMarker : Chars := ['【', '标', '签', '】']

/-- The summary-section marker `【总结】`. -/
def sumMarker : Chars := ['【', '总', '结', '】']

/-- Lookahead `(?=【总结】|\n\n|$)` of the tag regex: Python's `$` (no MULTILINE)
matches at the end of the text or just before a final newline. -/
def lookaheadTag (s : Chars) : Bool :=
  sumMarker.isPrefixOf s || ('\n' :: '\n' :: []).isPrefixOf s ||
    decide (s = []) || decide (s = ['\n'])

/-- The lazy group `(.+?)` of `re.search(r'【标签】(.+?)(?=【总结】|\n\n|$)', ai_text)`:
shortest nonempty run of non-newline characters after which the lookahead holds. -/
def tagCapture : Chars → Option Chars
  | [] => none
  | c :: r =>
    if c = '\n' then none
    else if lookaheadTag r then some [c]
    else
      match tagCapture r with
      | some g => some (c :: g)
      | none => none

/-- Attempt of the tag regex at one start position. -/
def tagMatchAt (s : Chars) : Option Chars :=
  if tagMarker.isPrefixOf s then tagCapture (s.drop tagMarker.length) else none

/-- `\s*\n(.+)` with DOTALL after the summary marker: greedy whitespace run,
then a newline, then a nonempty remainder (the capture).  `\s` is modelled by
`Char.isWhitespace`, as in `pystrip`. -/
def sumCapture : Chars → Option Chars
  | [] => none
  | c :: r =>
    if c.isWhitespace then
      match sumCapture r with
      | some g => some g
      | none => if c = '\n' ∧ r ≠ [] then some r else none
    else none

/-- Attempt of `re.search(r'【总结】\s*\n(.+)', ai_text, re.DOTALL)` at one position. -/
def sumMatchAt (s : Chars) : Option Chars :=
  if sumMarker.isPrefixOf s then sumCapture (s.drop sumMarker.length) else none

/-- `re.search`: try the position-wise matcher at every suffix, leftmost first. -/
def searchAux (p : Chars → Option Chars) : Chars → Option Chars
  | [] => p []
  | c :: r =>
    match p (c :: r) with
    | some g => some g
    | none => searchAux p r

/-- True when the marker at the head of `s` is followed by at least one
non-newline character, i.e. `【标签】.+` can match here. -/
def hasBodyAfterMarker (s : Chars) : Bool :=
  match s.drop tagMarker.length with
  | [] => false
  | d :: _ => d != '\n'

/-- `re.sub(r'【标签】.+', '', ai_text)` (no DOTALL): scan left to right; where
the marker is followed by at least one non-newline character, remove the marker
and the rest of its line (the greedy `.+`), else emit the character and move on. -/
def subTagLine : Chars → Chars
  | [] => []
  | c :: r =>
    if tagMarker.isPrefixOf (c :: r) then
      match hm : (c :: r).drop tagMarker.length with
      | [] => c :: subTagLine r
      | d :: t =>
        if d = '\n' then c :: subTagLine r
        else subTagLine (t.dropWhile (fun x => x ≠ '\n'))
    else c :: subTagLine r
termination_by s => s.length
decreasing_by
  all_goals simp only [List.length_cons]
  all_goals try omega
  have h1 : (List.dropWhile (fun x => decide (x ≠ '\n')) t).length ≤ t.length :=
    ((List.dropWhile_suffix _).sublist).length_le
  have h2 := congrArg List.length hm
  simp only [List.length_drop, List.length_cons, List.length_nil, tagMarker] at h2
  omega

/-- Helper for `pydedup`: `seen` holds the strings already emitted. -/
def pydedupAux : List String → List String → List String
  | _, [] => []
  | seen, c :: r =>
    if c ∈ seen then pydedupAux seen r else c :: pydedupAux (c :: seen) r

/-- Deterministic model of Python's `list(set(xs))`: Python's set order is
unspecified, so the duplicate removal is modelled keeping first occurrences;
as a set the result always equals `set(xs)`. -/
def pydedup (l : List String) : List String := pydedupAux [] l

/-- One separator character of `re.split(r'[、,，\s]+', tag_text)`. -/
def isTagSep (c : Char) : Bool :=
  c = '、' || c = ',' || c = '，' || c.isWhitespace

/-- Helper for `splitSeps`: accumulates the current run reversed. -/
def splitSepsAux : Chars → Chars → List Chars
  | acc, [] => if acc.isEmpty then [] else [acc.reverse]
  | acc, c :: r =>
    if isTagSep c then
      (if acc.isEmpty then splitSepsAux [] r else acc.reverse :: splitSepsAux [] r)
    else splitSepsAux (c :: acc) r

/-- `re.split(r'[、,，\s]+', tag_text)` followed by the source's
`[c for c in categories if c.strip()]`: the maximal runs of non-separator
characters (the filter only removes the empty boundary pieces). -/
def splitSeps (s : Chars) : List Chars := splitSepsAux [] s

/-- Category extraction from a tag-section capture (`src/ai_processor.py`
lines 290–294): strip, split on separators, de-duplicate, cap at 5. -/
def extractCategories (tagText : Chars) : List String :=
  (pydedup ((splitSeps (pystrip tagText)).map String.mk)).take 5

/-- `AIArticleProcessor._parse_ai_response` (`src/ai_processor.py` lines 272–307)
on a character list, returning (summary, categories). -/
def parse_ai_response_chars (s : Chars) : String × List String :=
  let categories : List String :=
    match searchAux tagMatchAt s with
    | some g => extractCategories g
    | none => []
  let summary : String :=
    match searchAux sumMatchAt s with
    | some g => String.mk (pystrip g)
    | none => String.mk (pystrip (subTagLine s))
  (summary, categories)

/-- `AIArticleProcessor._parse_ai_response` on a `String`. -/
def parse_ai_response (aiText : String) : String × List String :=
  parse_ai_response_chars aiText.toList

/-!
## Category generation (`main.py`, `AIArticleProcessor.generate_categories`, lines 217–246)
-/

/-- The deterministic tail of `generate_categories` applied to the model's reply
(`main.py` lines 240–242): strip, split on `、`, strip the pieces and drop empty
ones, keep at most 3.  No duplicate removal is performed by the source. -/
def generate_categories_parse (responseText : String) : List String :=
  ((((splitOnChar '、' (pystrip responseText.toList)).map
        (fun c => String.mk (pystrip c))).filter (fun c => c ≠ "")).take 3)

/-!
## Time-window filtering (`main.py`, `_is_within_time_range`, lines 396–414)
-/

/-- `datetime.now() - timedelta(hours=max_hours)` with instants as seconds. -/
def timeThreshold (now maxHours : Int) : Int := now - maxHours * 3600

/-- `_is_within_time_range` of `main.py` (lines 396–414).  The external
`email.utils.parsedate_to_datetime` is the parameter `parseDate`, returning
`none` when parsing raises; instants are seconds on one timeline, so the
source's timezone normalisation of the threshold is the identity here.
Missing fields are empty strings, matching `entry.get('published') or
entry.get('updated', '')`. -/
def is_within_time_range (parseDate : String → Option Int)
    (published updated : String) (threshold : Int) : Bool :=
  let publishedStr := if published = "" then updated else published
  if publishedStr = "" then false
  else
    match parseDate publishedStr with
    | none => false
    | some dt => threshold ≤ dt

/-!
## Seen-store persistence (`main.py`, `main`, lines 980–1012)
-/

/-- The end of `main()` (`main.py` lines 980–1012): only when the WeChat push
succeeded are the processed articles' links added to the in-memory seen set and
the result saved; on failure nothing is written, so the on-disk set is the one
loaded at start. -/
def finalizeSeenLinks (diskSeen : Finset String) (processedLinks : List String)
    (pushSuccess : Bool) : Finset String :=
  if pushSuccess then processedLinks.foldl (fun s l => insert l s) diskSeen
  else diskSeen

/-!
## The four conceptual noise levels of the specification
-/

/-- The specification's noise levels {none, light, noise, pr}; `main.py` spells
the heavy/noise level "heavy", `src/ai_processor.py` spells it "noise". -/
inductive CanonLevel
  | cnone
  | clight
  | cnoise
  | cpr
deriving DecidableEq

/-- Interpretation of a stored `noise_level` value as a conceptual level;
`none` on any value outside {None, "light", "heavy", "noise", "pr"}. -/
def canonOf : Option String → Option CanonLevel
  | none => some CanonLevel.cnone
  | some s =>
    if s = "light" then some CanonLevel.clight
    else if s = "heavy" then some CanonLevel.cnoise
    else if s = "noise" then some CanonLevel.cnoise
    else if s = "pr" then some CanonLevel.cpr
    else none

/-!
## Helper lemmas
-/

theorem weightedScore_eq_half (title content : String) (kws : List String) :
    weightedScore title content kws = (weighted2 title content kws : ℚ) / 2 := by
  unfold weightedScore weighted2
  push_cast
  ring

theorem list_filterMap_eq_single {α β : Type} [DecidableEq α] (f : α → Option β) :
    ∀ (l : List α) (a : α) (b : β), a ∈ l → l.count a = 1 → f a = some b →
      (∀ x ∈ l, x ≠ a → f x = none) → l.filterMap f = [b] := by
  intro l
  induction l with
  | nil => intro a b h; exact absurd h (List.not_mem_nil a)
  | cons y ys ih =>
    intro a b hmem hcount hfa hother
    by_cases hya : y = a
    · subst hya
      rw [List.filterMap_cons, hfa]
      have hnot : y ∉ ys := by
        rw [List.count_cons_self] at hcount
        exact List.count_eq_zero.mp (by omega)
      have hnil : ys.filterMap f = [] := by
        rw [List.filterMap_eq_nil_iff]
        intro x hx
        exact hother x (List.mem_cons_of_mem _ hx) (fun he => hnot (he ▸ hx))
      rw [hnil]
    · have hfy : f y = none := hother y (List.mem_cons_self _ _) hya
      rw [List.filterMap_cons, hfy]
      refine ih a b ?_ ?_ hfa ?_
      · rcases List.mem_cons.mp hmem with he | hm
        · exact absurd he.symm hya
        · exact hm
      · rwa [List.count_cons_of_ne (fun he => hya he.symm)] at hcount
      · intro x hx; exact hother x (List.mem_cons_of_mem _ hx)

theorem keys_unique {β : Type} :
    ∀ (l : List (String × β)), (l.map Prod.fst).Nodup →
      ∀ {k : String} {v1 v2 : β}, (k, v1) ∈ l → (k, v2) ∈ l → v1 = v2 := by
  intro l
  induction l with
  | nil => intro _ k v1 v2 h; exact absurd h (List.not_mem_nil _)
  | cons p t ih =>
    intro hnd k v1 v2 h1 h2
    rw [List.map_cons, List.nodup_cons] at hnd
    rcases List.mem_cons.mp h1 with e1 | m1 <;> rcases List.mem_cons.mp h2 with e2 | m2
    · exact congrArg Prod.snd (e1.trans e2.symm)
    · exfalso
      apply hnd.1
      have hk : p.1 = k := congrArg Prod.fst e1.symm
      rw [hk]
      exact List.mem_map.mpr ⟨(k, v2), m2, rfl⟩
    · exfalso
      apply hnd.1
      have hk : p.1 = k := congrArg Prod.fst e2.symm
      rw [hk]
      exact List.mem_map.mpr ⟨(k, v1), m1, rfl⟩
    · exact ih hnd.2 m1 m2

theorem competitive_single (title content X : String) (kws : List String)
    (hmem : (X, kws) ∈ noiseKeywordsMain)
    (hw : 4 ≤ weighted2 title content kws)
    (hothers : ∀ p ∈ noiseKeywordsMain, p.1 ≠ X → weighted2 title content p.2 < 4) :
    competitive title content
      = [(X, weighted2 title content kws, matchCount title kws)] := by
  unfold competitive
  refine list_filterMap_eq_single _ _ (X, kws) _ hmem ?_ ?_ ?_
  · have hnd : noiseKeywordsMain.Nodup := by decide
    exact List.count_eq_one_of_mem hnd hmem
  · simp only [if_pos hw]
  · intro p hp hne
    by_cases hp1 : p.1 = X
    · exfalso
      have hknd : (noiseKeywordsMain.map Prod.fst).Nodup := by decide
      have hp' : (X, p.2) ∈ noiseKeywordsMain := by
        rw [← hp1]
        exact hp
      have h2 : p.2 = kws := keys_unique _ hknd hp' hmem
      exact hne (Prod.ext hp1 h2)
    · have hlt := hothers p hp hp1
      simp only [if_neg (by omega : ¬ 4 ≤ weighted2 title content p.2)]

/-!
## Claim theorems
-/

/-- C1: for any article whose title contains exactly 2 distinct keywords of a
noise category X of the table, whose body contains 0 keywords of X, and where no
other category reaches the discard threshold 2.0, the weighted score of X is
`2 * 2.5 + 0 = 5.0` and `detect_noise` returns the heavy/noise severity
("heavy" in `main.py`) with noise_type X. -/
theorem detect_noise_heavy_two_title_keywords
    (title content X : String) (kws : List String)
    (hmem : (X, kws) ∈ noiseKeywordsMain)
    (ht : matchCount title kws = 2) (hc : matchCount content kws = 0)
    (hothers : ∀ p ∈ noiseKeywordsMain, p.1 ≠ X → weighted2 title content p.2 < 4) :
    weightedScore title content kws = 5 ∧
      detect_noise title content = (some "heavy", some X) := by
  have hw2 : weighted2 title content kws = 10 := by
    unfold weighted2
    rw [ht, hc]
  constructor
  · rw [weightedScore_eq_half, hw2]
    norm_num
  · unfold detect_noise
    rw [competitive_single title content X kws hmem (by omega) hothers, hw2, ht]
    simp [pickMax]

/-- Witness for C1: the title "诚聘热招" holds exactly the two recruitment
keywords 诚聘 and 热招 of `main.py`'s table, the body is empty, no other
category scores, and the classifier answers ("heavy", 招聘). -/
theorem detect_noise_heavy_two_title_keywords_witness :
    weightedScore "诚聘热招" "" (keywordsOf noiseKeywordsMain "招聘") = 5 ∧
      detect_noise "诚聘热招" "" = (some "heavy", some "招聘") :=
  detect_noise_heavy_two_title_keywords "诚聘热招" "" "招聘"
    (keywordsOf noiseKeywordsMain "招聘")
    (by decide) (by decide) (by decide) (by decide)

/-- C8 counterexample: the claim's scenario is unsatisfiable — a weighted score
of exactly 2.5 cannot occur together with 0 title keyword matches, since with 0
title matches the score equals the integer body-match count. -/
theorem weighted_score_half_five_needs_title_keyword :
    ¬ ∃ (title content : String) (kws : List String),
        weightedScore title content kws = 5 / 2 ∧ matchCount title kws = 0 := by
  rintro ⟨title, content, kws, hw, h0⟩
  unfold weightedScore at hw
  rw [h0] at hw
  push_cast at hw
  have h2 : ((2 * matchCount content kws : ℕ) : ℚ) = ((5 : ℕ) : ℚ) := by
    push_cast
    linarith
  have h3 : 2 * matchCount content kws = 5 := Nat.cast_inj.mp h2
  omega

/-- C8 amended: a winning weighted score of exactly 2.5 forces exactly 1 title
keyword and 0 body keywords; in that case (no other category reaching the
discard threshold) the classifier returns "light" with that category, since
2.5 < 5, 2.5 < 4 and 2.5 ≥ 2.5. -/
theorem detect_noise_light_at_boundary
    (title content X : String) (kws : List String)
    (hmem : (X, kws) ∈ noiseKeywordsMain)
    (ht : matchCount title kws = 1) (hc : matchCount content kws = 0)
    (hothers : ∀ p ∈ noiseKeywordsMain, p.1 ≠ X → weighted2 title content p.2 < 4) :
    weightedScore title content kws = 5 / 2 ∧
      detect_noise title content = (some "light", some X) := by
  have hw2 : weighted2 title content kws = 5 := by
    unfold weighted2
    rw [ht, hc]
  constructor
  · rw [weightedScore_eq_half, hw2]
    norm_num
  · unfold detect_noise
    rw [competitive_single title content X kws hmem (by omega) hothers, hw2, ht]
    simp [pickMax]

/-- Witness for the amended C8: the title "估值" holds exactly one 融资 keyword
of `main.py`'s table, the body is empty, and the classifier answers
("light", 融资) at the weighted score 2.5. -/
theorem detect_noise_light_at_boundary_witness :
    weightedScore "估值" "" (keywordsOf noiseKeywordsMain "融资") = 5 / 2 ∧
      detect_noise "估值" "" = (some "light", some "融资") :=
  detect_noise_light_at_boundary "估值" "" "融资"
    (keywordsOf noiseKeywordsMain "融资")
    (by decide) (by decide) (by decide) (by decide)

/-- C2: every noise_level value assigned by the pipeline's classifiers is one
of the specification's four levels {none, light, noise, pr} — `main.py` names
the heavy/noise level "heavy", `src/ai_processor.py` names it "noise"; `canonOf`
maps exactly those spellings to the four conceptual levels and rejects
everything else. -/
theorem noise_level_within_spec_levels (title content text : String) :
    (canonOf (detect_noise title content).1).isSome ∧
      (canonOf (match_keywords text).noise_level).isSome := by
  constructor
  · unfold detect_noise
    rcases pickMax (competitive title content) with _ | ⟨cat, w, t⟩
    · simp [canonOf]
    · by_cases h1 : 10 ≤ w ∨ (8 ≤ w ∧ 2 ≤ t)
      · simp [h1, canonOf]
      · by_cases h2 : 5 ≤ w
        · simp [h1, h2, canonOf]
        · simp [h1, h2, canonOf]
  · unfold match_keywords
    by_cases h : 2 ≤ (matchKeywordsBest text).2
    · simp only [h, if_true]
      unfold get_noise_level
      rcases (matchKeywordsBest text).1 with _ | s
      · simp [canonOf]
      · by_cases hs1 : s ∈ ["招聘", "带货", "广告", "课程", "社群", "活动推广"]
        · simp [hs1, canonOf]
        · by_cases hs2 : s ∈ ["融资", "公关"]
          · simp [hs1, hs2, canonOf]
          · simp [hs1, hs2, canonOf]
    · simp [h, canonOf]

/-- C3 counterexample: the article titled "轮融资完成融资" (two distinct 融资
keywords in the title, none in the empty body) has 融资 as the winning weighted
category above the discard threshold, yet the weighted classifier of `main.py`
returns the severity "heavy", not "pr": `detect_noise` has no pr
reclassification (its table does not even hold a 公关 category). -/
theorem weighted_classifier_funding_heavy_not_pr :
    detect_noise "轮融资完成融资" "" = (some "heavy", some "融资") ∧
      (some "heavy" : Option String) ≠ some "pr" := by
  constructor
  · decide
  · decide

/-- C3 amended: the pr reclassification lives in the count-based classifier of
`src/ai_processor.py`: whenever its best-matching category with at least 2 raw
keyword matches is 融资 or 公关, the assigned noise_level is "pr" whatever the
match count is. -/
theorem count_based_pr_reclassification (text X : String) (bc : Nat)
    (hbest : matchKeywordsBest text = (some X, bc)) (h2 : 2 ≤ bc)
    (hX : X = "融资" ∨ X = "公关") :
    (match_keywords text).noise_level = some "pr" ∧
      (match_keywords text).is_noise = true := by
  unfold match_keywords
  rw [hbest]
  simp only [h2, if_true]
  rcases hX with rfl | rfl
  · exact ⟨by decide, by simp [h2]⟩
  · exact ⟨by decide, by simp [h2]⟩

/-- Witness for the amended C3: "完成轮融资估值" matches three 融资 keywords of
the count-based table (融资, 轮融资, 估值) and is classified as pr. -/
theorem count_based_pr_reclassification_witness :
    (match_keywords "完成轮融资估值").noise_level = some "pr" ∧
      (match_keywords "完成轮融资估值").is_noise = true :=
  count_based_pr_reclassification "完成轮融资估值" "融资" 3
    (by decide) (by decide) (Or.inl rfl)

/-- C4: the time-window check of `main.py` with `max_hours = 24`: an entry
whose best-available timestamp parses to 25 hours before now is excluded, one
23 hours before now is included, one whose timestamp fails to parse is excluded,
one with no timestamp at all is excluded (fail-closed), and when `published` is
missing the check falls back to `updated`. -/
theorem time_window_policy (parseDate : String → Option Int) (now : Int)
    (pub upd : String) (hpub : pub ≠ "") :
    (parseDate pub = some (now - 25 * 3600) →
        is_within_time_range parseDate pub upd (timeThreshold now 24) = false) ∧
      (parseDate pub = some (now - 23 * 3600) →
        is_within_time_range parseDate pub upd (timeThreshold now 24) = true) ∧
      (parseDate pub = none →
        is_within_time_range parseDate pub upd (timeThreshold now 24) = false) ∧
      is_within_time_range parseDate "" "" (timeThreshold now 24) = false ∧
      (upd ≠ "" → parseDate upd = some (now - 23 * 3600) →
        is_within_time_range parseDate "" upd (timeThreshold now 24) = true) := by
  unfold is_within_time_range timeThreshold
  refine ⟨?_, ?_, ?_, ?_, ?_⟩
  · intro h
    simp only [if_neg hpub, hpub, if_false, h]
    simp only [decide_eq_false_iff_not]
    omega
  · intro h
    simp only [if_neg hpub, hpub, if_false, h]
    simp only [decide_eq_true_eq]
    omega
  · intro h
    simp [hpub, h]
  · simp
  · intro hupd h
    simp [hupd, h]
    omega

/-- Witness for C4: at `now = 0` all five conjuncts are realised with concrete
parse functions. -/
theorem time_window_policy_witness :
    is_within_time_range (fun _ => some (0 - 25 * 3600)) "x" "y"
        (timeThreshold 0 24) = false ∧
      is_within_time_range (fun _ => some (0 - 23 * 3600)) "x" "y"
        (timeThreshold 0 24) = true ∧
      is_within_time_range (fun _ => none) "x" "y"
        (timeThreshold 0 24) = false ∧
      is_within_time_range (fun _ => some 0) "" ""
        (timeThreshold 0 24) = false ∧
      is_within_time_range (fun _ => some (0 - 23 * 3600)) "" "y"
        (timeThreshold 0 24) = true :=
  ⟨(time_window_policy (fun _ => some (0 - 25 * 3600)) 0 "x" "y" (by decide)).1 rfl,
   (time_window_policy (fun _ => some (0 - 23 * 3600)) 0 "x" "y" (by decide)).2.1 rfl,
   (time_window_policy (fun _ => none) 0 "x" "y" (by decide)).2.2.1 rfl,
   (time_window_policy (fun _ => some 0) 0 "x" "y" (by decide)).2.2.2.1,
   (time_window_policy (fun _ => some (0 - 23 * 3600)) 0 "x" "y" (by decide)).2.2.2.2
     (by decide) rfl⟩

/-- The in-memory seen set after the adding loop is the union of the loaded set
and the processed links. -/
theorem foldl_insert_eq_union (l : List String) :
    ∀ s : Finset String, l.foldl (fun acc x => insert x acc) s = s ∪ l.toFinset := by
  induction l with
  | nil => intro s; simp
  | cons a t ih =>
    intro s
    rw [List.foldl_cons, ih, List.toFinset_cons, Finset.union_insert, Finset.insert_union]

/-- C5: the run persists the seen store only on delivery success — on failure
the on-disk set stays exactly the set loaded at the start of the run, and on
success it becomes the old set united with the processed articles' links. -/
theorem seen_store_gated_on_delivery (disk : Finset String) (links : List String) :
    finalizeSeenLinks disk links false = disk ∧
      finalizeSeenLinks disk links true = disk ∪ links.toFinset := by
  constructor
  · simp [finalizeSeenLinks]
  · simp [finalizeSeenLinks, foldl_insert_eq_union]

/-- C6: parsing the raw model output `【标签】A、B、C\n\n【总结】\nLine1\nLine2`
yields the categories A, B, C and the summary `Line1\nLine2`.  Python's
`list(set(...))` order is unspecified; the model keeps first occurrences, so
the categories list is exactly ["A", "B", "C"]. -/
theorem parse_ai_response_example :
    parse_ai_response "【标签】A、B、C\n\n【总结】\nLine1\nLine2"
      = ("Line1\nLine2", ["A", "B", "C"]) := by
  decide

/-- The first-occurrence duplicate removal never repeats an entry and never
emits an entry of `seen`. -/
theorem pydedupAux_nodup :
    ∀ (l seen : List String),
      (pydedupAux seen l).Nodup ∧ ∀ x ∈ pydedupAux seen l, x ∉ seen := by
  intro l
  induction l with
  | nil => intro seen; exact ⟨List.nodup_nil, by intro x hx; simp [pydedupAux] at hx⟩
  | cons c r ih =>
    intro seen
    unfold pydedupAux
    by_cases h : c ∈ seen
    · rw [if_pos h]
      exact ih seen
    · rw [if_neg h]
      obtain ⟨hnd, hni⟩ := ih (c :: seen)
      refine ⟨List.nodup_cons.mpr ⟨?_, hnd⟩, ?_⟩
      · intro hc
        exact hni c hc (List.mem_cons_self _ _)
      · intro x hx
        rcases List.mem_cons.mp hx with rfl | hx'
        · exact h
        · intro hxs
          exact hni x hx' (List.mem_cons_of_mem _ hxs)

/-- C9 counterexample: `generate_categories` (`main.py` lines 240–242) performs
no duplicate removal — on the model reply "AI、AI" it produces the category list
["AI", "AI"], which has a duplicate entry. -/
theorem generate_categories_duplicates :
    generate_categories_parse "AI、AI" = ["AI", "AI"] ∧
      ¬ (generate_categories_parse "AI、AI").Nodup := by
  constructor
  · decide
  · decide

/-- C9 amended: categories from `_parse_ai_response` always have at most 5
entries and no duplicates; categories from `generate_categories` have at most 3
entries (hence at most 5) but are not de-duplicated. -/
theorem categories_size_invariant (s r : String) :
    (parse_ai_response s).2.length ≤ 5 ∧ (parse_ai_response s).2.Nodup ∧
      (generate_categories_parse r).length ≤ 3 := by
  refine ⟨?_, ?_, ?_⟩
  · unfold parse_ai_response parse_ai_response_chars
    rcases searchAux tagMatchAt s.toList with _ | g
    · simp
    · simp [extractCategories]
  · unfold parse_ai_response parse_ai_response_chars
    rcases searchAux tagMatchAt s.toList with _ | g
    · simp
    · simp only [extractCategories]
      exact (List.take_sublist 5 _).nodup (pydedupAux_nodup _ []).1
  · unfold generate_categories_parse
    exact List.length_take_le 3 _

/-- The strict-greater fold of `_match_keywords` keeps the invariant: a `none`
best type has count 0, and a `some` best type is the starting one or a key of
the table iterated over. -/
theorem matchKeywordsBest_invariant :
    ∀ (tbl : List (String × List String)) (text : String)
      (acc : Option String × Nat), (acc.1 = none → acc.2 = 0) →
      ((tbl.foldl (fun acc p =>
          let c := matchCount text p.2
          if acc.2 < c then (some p.1, c) else acc) acc).1 = none →
        (tbl.foldl (fun acc p =>
          let c := matchCount text p.2
          if acc.2 < c then (some p.1, c) else acc) acc).2 = 0) ∧
      (∀ s, (tbl.foldl (fun acc p =>
          let c := matchCount text p.2
          if acc.2 < c then (some p.1, c) else acc) acc).1 = some s →
        acc.1 = some s ∨ s ∈ tbl.map Prod.fst) := by
  intro tbl
  induction tbl with
  | nil =>
    intro text acc h
    exact ⟨h, fun s hs => Or.inl hs⟩
  | cons p t ih =>
    intro text acc h
    rw [List.foldl_cons]
    by_cases hlt : acc.2 < matchCount text p.2
    · simp only [hlt, if_true]
      obtain ⟨h1, h2⟩ := ih text (some p.1, matchCount text p.2) (by intro hc; simp at hc)
      refine ⟨h1, fun s hs => ?_⟩
      rcases h2 s hs with he | hm
      · right
        rw [List.map_cons]
        simp only [Option.some.injEq] at he
        exact he ▸ List.mem_cons_self _ _
      · right
        rw [List.map_cons]
        exact List.mem_cons_of_mem _ hm
    · simp only [hlt, if_false]
      obtain ⟨h1, h2⟩ := ih text acc h
      refine ⟨h1, fun s hs => ?_⟩
      rcases h2 s hs with he | hm
      · exact Or.inl he
      · right
        rw [List.map_cons]
        exact List.mem_cons_of_mem _ hm

/-- C10 (implicit): with the default tables, the count-based classification
never assigns "light": a noise verdict needs at least 2 matches, so the best
type is one of the 8 table keys, each of which `_get_noise_level` maps to
"noise" or "pr"; the same holds for every key of the legacy
`article_classifier` table. -/
theorem count_based_never_light (text : String) :
    (match_keywords text).noise_level ≠ some "light" ∧
      ((match_keywords text).noise_level = none ∨
        (match_keywords text).noise_level = some "noise" ∨
        (match_keywords text).noise_level = some "pr") ∧
      (∀ p ∈ noiseKeywordsAP, get_noise_level (some p.1) ≠ "light") ∧
      (∀ p ∈ noiseKeywordsAC, get_noise_level (some p.1) ≠ "light") := by
  have hmain : (match_keywords text).noise_level = none ∨
      (match_keywords text).noise_level = some "noise" ∨
      (match_keywords text).noise_level = some "pr" := by
    unfold match_keywords
    by_cases h : 2 ≤ (matchKeywordsBest text).2
    · simp only [h, if_true]
      right
      have hinv := matchKeywordsBest_invariant noiseKeywordsAP text (none, 0) (by simp)
      have hne : (matchKeywordsBest text).1 ≠ none := by
        intro hn
        have := hinv.1 (by rw [← matchKeywordsBest]; exact hn)
        rw [← matchKeywordsBest] at this
        omega
      rcases hb : (matchKeywordsBest text).1 with _ | s
      · exact absurd hb hne
      · have hs : s ∈ noiseKeywordsAP.map Prod.fst := by
          rcases hinv.2 s (by rw [← matchKeywordsBest]; exact hb) with he | hm
          · exact absurd he (by simp)
          · exact hm
        have : s = "招聘" ∨ s = "带货" ∨ s = "广告" ∨ s = "课程" ∨ s = "社群" ∨
            s = "活动推广" ∨ s = "融资" ∨ s = "公关" := by
          simpa [noiseKeywordsAP] using hs
        rcases this with rfl | rfl | rfl | rfl | rfl | rfl | rfl | rfl
        · left; decide
        · left; decide
        · left; decide
        · left; decide
        · left; decide
        · left; decide
        · right; decide
        · right; decide
    · simp [h]
  refine ⟨?_, hmain, by decide, by decide⟩
  rcases hmain with h | h | h <;> rw [h] <;> simp

/-- A marker starting with 【 cannot be a prefix of a text whose head is not 【. -/
theorem marker_isPrefixOf_false (m : Chars) {c : Char} (r : Chars) (hc : c ≠ '【') :
    (('【' :: m).isPrefixOf (c :: r)) = false := by
  rw [List.isPrefixOf_cons₂, beq_eq_false_iff_ne.mpr (Ne.symm hc), Bool.false_and]

theorem tagMatchAt_none_of_head {c : Char} (s : Chars) (hc : c ≠ '【') :
    tagMatchAt (c :: s) = none := by
  unfold tagMatchAt
  rw [show tagMarker = '【' :: ['标', '签', '】'] from rfl,
    marker_isPrefixOf_false _ _ hc]
  simp

theorem sumMatchAt_none_of_head {c : Char} (s : Chars) (hc : c ≠ '【') :
    sumMatchAt (c :: s) = none := by
  unfold sumMatchAt
  rw [show sumMarker = '【' :: ['总', '结', '】'] from rfl,
    marker_isPrefixOf_false _ _ hc]
  simp

/-- The leftmost-search skips a stretch holding no 【 at all. -/
theorem searchAux_append_no_bracket (p : Chars → Option Chars)
    (hp : ∀ (c : Char) (s : Chars), c ≠ '【' → p (c :: s) = none)
    (x y : Chars) (hx : ∀ c ∈ x, c ≠ '【') :
    searchAux p (x ++ y) = searchAux p y := by
  induction x with
  | nil => rfl
  | cons c t ih =>
    rw [List.cons_append]
    show (match p (c :: (t ++ y)) with
      | some g => some g
      | none => searchAux p (t ++ y)) = searchAux p y
    rw [hp c _ (hx c (List.mem_cons_self _ _))]
    exact ih (fun d hd => hx d (List.mem_cons_of_mem _ hd))

/-- The leftmost-search fails on a text holding no 【 at all. -/
theorem searchAux_none_no_bracket (p : Chars → Option Chars)
    (hp : ∀ (c : Char) (s : Chars), c ≠ '【' → p (c :: s) = none)
    (hnil : p [] = none)
    (x : Chars) (hx : ∀ c ∈ x, c ≠ '【') :
    searchAux p x = none := by
  induction x with
  | nil => exact hnil
  | cons c t ih =>
    show (match p (c :: t) with
      | some g => some g
      | none => searchAux p t) = none
    rw [hp c _ (hx c (List.mem_cons_self _ _))]
    exact ih (fun d hd => hx d (List.mem_cons_of_mem _ hd))

/-- The tag lookahead fails on a text whose head is neither a newline nor 【. -/
theorem lookaheadTag_false_of_head {c : Char} (s : Chars)
    (h1 : c ≠ '\n') (h2 : c ≠ '【') : lookaheadTag (c :: s) = false := by
  unfold lookaheadTag
  have ha : sumMarker.isPrefixOf (c :: s) = false := by
    rw [show sumMarker = '【' :: ['总', '结', '】'] from rfl]
    exact marker_isPrefixOf_false _ _ h2
  have hb : ('\n' :: '\n' :: []).isPrefixOf (c :: s) = false := by
    rw [List.isPrefixOf_cons₂, beq_eq_false_iff_ne.mpr (Ne.symm h1), Bool.false_and]
  rw [ha, hb]
  simp [h1]

/-- On a nonempty newline-free bracket-free capture followed by a suffix where
the lookahead holds, the lazy capture takes exactly the capture. -/
theorem tagCapture_exact :
    ∀ (tag : Chars), tag ≠ [] → (∀ c ∈ tag, c ≠ '\n') → (∀ c ∈ tag, c ≠ '【') →
      ∀ suf, lookaheadTag suf = true → tagCapture (tag ++ suf) = some tag := by
  intro tag
  induction tag with
  | nil => intro h; exact absurd rfl h
  | cons a t ih =>
    intro _ h2 h3 suf hla
    have ha : a ≠ '\n' := h2 a (List.mem_cons_self _ _)
    rcases t with _ | ⟨b, t'⟩
    · show tagCapture (a :: suf) = some [a]
      unfold tagCapture
      rw [if_neg ha, if_pos hla]
    · show tagCapture (a :: (b :: t' ++ suf)) = some (a :: b :: t')
      have hb1 : b ≠ '\n' := h2 b (List.mem_cons_of_mem _ (List.mem_cons_self _ _))
      have hb2 : b ≠ '【' := h3 b (List.mem_cons_of_mem _ (List.mem_cons_self _ _))
      have hrec : tagCapture (b :: t' ++ suf) = some (b :: t') :=
        ih (by simp) (fun c hc => h2 c (List.mem_cons_of_mem _ hc))
          (fun c hc => h3 c (List.mem_cons_of_mem _ hc)) suf hla
      unfold tagCapture
      rw [if_neg ha, List.cons_append,
        if_neg (by rw [lookaheadTag_false_of_head _ hb1 hb2]; exact fun h => by cases h)]
      rw [List.cons_append] at hrec
      rw [hrec]

/-- At the tag marker the tag pattern hands over to the lazy capture. -/
theorem tagMatchAt_marker (rest : Chars) :
    tagMatchAt (tagMarker ++ rest) = tagCapture rest := by
  unfold tagMatchAt
  rw [show tagMarker.isPrefixOf (tagMarker ++ rest) = true by simp, List.drop_left]
  simp

/-- The leftmost search for the tag pattern succeeds at the marker when the
capture does. -/
theorem searchAux_tagMatch_at_marker (rest g : Chars)
    (hcap : tagCapture rest = some g) :
    searchAux tagMatchAt (tagMarker ++ rest) = some g := by
  rw [show tagMarker ++ rest = '【' :: (['标', '签', '】'] ++ rest) from rfl]
  show (match tagMatchAt ('【' :: (['标', '签', '】'] ++ rest)) with
    | some g => some g
    | none => searchAux tagMatchAt (['标', '签', '】'] ++ rest)) = some g
  rw [show ('【' :: (['标', '签', '】'] ++ rest)) = tagMarker ++ rest from rfl,
    tagMatchAt_marker, hcap]

/-- A text made of a 【-free stretch, the tag marker and further 【-free text
holds no summary marker, so the summary search fails. -/
theorem searchAux_sum_none (pre tag suf : Chars)
    (hpre : ∀ c ∈ pre, c ≠ '【') (htagb : ∀ c ∈ tag, c ≠ '【')
    (hsufb : ∀ c ∈ suf, c ≠ '【') :
    searchAux sumMatchAt (pre ++ (tagMarker ++ (tag ++ suf))) = none := by
  rw [searchAux_append_no_bracket sumMatchAt
    (fun c s hc => sumMatchAt_none_of_head s hc) pre _ hpre]
  rw [show tagMarker ++ (tag ++ suf) = '【' :: (['标', '签', '】'] ++ (tag ++ suf)) from rfl]
  show (match sumMatchAt ('【' :: (['标', '签', '】'] ++ (tag ++ suf))) with
    | some g => some g
    | none => searchAux sumMatchAt (['标', '签', '】'] ++ (tag ++ suf))) = none
  have h0 : sumMatchAt ('【' :: (['标', '签', '】'] ++ (tag ++ suf))) = none := by
    unfold sumMatchAt
    rw [show sumMarker.isPrefixOf ('【' :: (['标', '签', '】'] ++ (tag ++ suf)))
        = false from rfl]
    simp
  rw [h0]
  refine searchAux_none_no_bracket sumMatchAt
    (fun c s hc => sumMatchAt_none_of_head s hc) rfl _ ?_
  intro c hc
  rcases List.mem_append.mp hc with h | h
  · simp only [List.mem_cons, List.not_mem_nil, or_false] at h
    rcases h with rfl | rfl | rfl <;> decide
  · rcases List.mem_append.mp h with h' | h'
    · exact htagb c h'
    · exact hsufb c h'

/-- `re.sub` leaves a 【-free text unchanged. -/
theorem subTagLine_no_bracket : ∀ (s : Chars), (∀ c ∈ s, c ≠ '【') → subTagLine s = s := by
  intro s
  induction s with
  | nil => intro _; simp [subTagLine]
  | cons c r ih =>
    intro h
    have hc : c ≠ '【' := h c (List.mem_cons_self _ _)
    rw [subTagLine]
    rw [show tagMarker.isPrefixOf (c :: r) = false from by
      rw [show tagMarker = '【' :: ['标', '签', '】'] from rfl]
      exact marker_isPrefixOf_false _ _ hc]
    simp only [Bool.false_eq_true, if_false]
    rw [ih (fun d hd => h d (List.mem_cons_of_mem _ hd))]

/-- `re.sub` distributes over a leading 【-free stretch. -/
theorem subTagLine_append_free (x y : Chars) (hx : ∀ c ∈ x, c ≠ '【') :
    subTagLine (x ++ y) = x ++ subTagLine y := by
  induction x with
  | nil => simp
  | cons c t ih =>
    have hc : c ≠ '【' := hx c (List.mem_cons_self _ _)
    rw [List.cons_append, subTagLine]
    rw [show tagMarker.isPrefixOf (c :: (t ++ y)) = false from by
      rw [show tagMarker = '【' :: ['标', '签', '】'] from rfl]
      exact marker_isPrefixOf_false _ _ hc]
    simp only [Bool.false_eq_true, if_false]
    rw [ih (fun d hd => hx d (List.mem_cons_of_mem _ hd)), List.cons_append]

/-- `re.sub` at the marker removes the marker and the whole tag text (which
runs to the end of its line) and leaves the suffix untouched. -/
theorem subTagLine_marker (tag suf : Chars) (htag0 : tag ≠ [])
    (htagn : ∀ c ∈ tag, c ≠ '\n')
    (hsufb : ∀ c ∈ suf, c ≠ '【')
    (hsuf : suf = [] ∨ suf = ['\n'] ∨ ('\n' :: '\n' :: []).isPrefixOf suf = true) :
    subTagLine (tagMarker ++ (tag ++ suf)) = suf := by
  obtain ⟨a, t, rfl⟩ : ∃ a t, tag = a :: t := by
    rcases tag with _ | ⟨a, t⟩
    · exact absurd rfl htag0
    · exact ⟨a, t, rfl⟩
  have ha : a ≠ '\n' := htagn a (List.mem_cons_self _ _)
  have hdw : (t ++ suf).dropWhile (fun x => x ≠ '\n') = suf := by
    rw [List.dropWhile_append_of_pos (by
      intro d hd
      simpa using htagn d (List.mem_cons_of_mem _ hd))]
    rcases hsuf with rfl | rfl | h
    · simp
    · simp [List.dropWhile_cons]
    · obtain ⟨s', rfl⟩ := List.isPrefixOf_iff_prefix.mp h
      simp [List.dropWhile_cons]
  rw [show tagMarker ++ (a :: t ++ suf) = '【' :: (['标', '签', '】'] ++ (a :: t ++ suf))
    from rfl]
  rw [subTagLine]
  rw [show tagMarker.isPrefixOf ('【' :: (['标', '签', '】'] ++ (a :: t ++ suf)))
    = true from rfl]
  simp only [if_true]
  rw [show ('【' :: (['标', '签', '】'] ++ (a :: t ++ suf))).drop tagMarker.length
    = a :: (t ++ suf) from rfl]
  simp only [ha, if_false]
  rw [hdw]
  exact subTagLine_no_bracket suf hsufb

/-- C7: on any raw model output holding one tag section and no summary marker
— text of the form `pre ++ 【标签】 ++ tag ++ suf` where the nonempty tag text
has no newline, the marker character 【 occurs nowhere else (so no 【总结】
marker exists), and the tag text ends at a blank line or at the end of the text
(the terminators of the tag pattern) — the total parser returns the raw text
with the tag section (marker and tag text) stripped out, surrounding whitespace
trimmed, while the categories are still extracted from the tag text. -/
theorem parse_fallback_no_summary_marker (pre tag suf : Chars)
    (hpre : ∀ c ∈ pre, c ≠ '【')
    (htag0 : tag ≠ []) (htagn : ∀ c ∈ tag, c ≠ '\n') (htagb : ∀ c ∈ tag, c ≠ '【')
    (hsufb : ∀ c ∈ suf, c ≠ '【')
    (hsuf : suf = [] ∨ suf = ['\n'] ∨ ('\n' :: '\n' :: []).isPrefixOf suf = true) :
    parse_ai_response_chars (pre ++ (tagMarker ++ (tag ++ suf)))
      = (String.mk (pystrip (pre ++ suf)), extractCategories tag) := by
  have hla : lookaheadTag suf = true := by
    rcases hsuf with rfl | rfl | h
    · decide
    · decide
    · unfold lookaheadTag
      rw [h]
      simp
  have htagm : searchAux tagMatchAt (pre ++ (tagMarker ++ (tag ++ suf))) = some tag := by
    rw [searchAux_append_no_bracket tagMatchAt
      (fun c s hc => tagMatchAt_none_of_head s hc) pre _ hpre]
    exact searchAux_tagMatch_at_marker _ tag
      (tagCapture_exact tag htag0 htagn htagb suf hla)
  have hsum : searchAux sumMatchAt (pre ++ (tagMarker ++ (tag ++ suf))) = none :=
    searchAux_sum_none pre tag suf hpre htagb hsufb
  have hsub : subTagLine (pre ++ (tagMarker ++ (tag ++ suf))) = pre ++ suf := by
    rw [subTagLine_append_free pre _ hpre,
      subTagLine_marker tag suf htag0 htagn hsufb hsuf]
  unfold parse_ai_response_chars
  rw [htagm, hsum, hsub]

/-- Witness for C7: a preamble, the tag text "A、B" and a blank-line suffix;
parsing strips exactly the tag section and still extracts the categories. -/
theorem parse_fallback_no_summary_marker_witness :
    parse_ai_response_chars
        ("Intro\n".toList ++ (tagMarker ++ ("A、B".toList ++ "\n\nTail".toList)))
      = (String.mk (pystrip ("Intro\n".toList ++ "\n\nTail".toList)),
          extractCategories "A、B".toList) :=
  parse_fallback_no_summary_marker "Intro\n".toList "A、B".toList "\n\nTail".toList
    (by decide) (by decide) (by decide) (by decide) (by decide)
    (Or.inr (Or.inr (by decide)))
